import Mathlib

/-!
Shallow embedding of the curvature-analysis core of the `eos-experiments`
repository (modules `src/analysis/hessian.py`, `src/analysis/eigenvector_analysis.py`,
`src/utils/activation.py`, `src/utils/initialization.py`), together with
theorems settling the specification claims about it.

Modelling conventions:
* Python floats are modelled as exact rationals (`ℚ`); float vectors as `List ℚ`.
* Python strings are `String`; character-level Python operations
  (`split`, `endswith`, `in`, `lower`) are modelled on `String.data` (`List Char`).
* External library calls (`torch.autograd`, `torch.sqrt`, `scipy.sparse.linalg.eigsh`,
  random `nn.init` fills) are modelled as explicit function parameters, documented
  at each use site.
* A Python function that can raise is embedded with result type `Except Err _`;
  a function whose body contains no `raise` is embedded with an `.ok` result
  throughout (making the absence of failure a statable fact).
-/

namespace EoS

/-- Error kinds. `valueError` and `keyError` are the exceptions the embedded code
can actually raise (`raise ValueError` in the utils modules; Python `dict[k]`
lookup failure in `eigenvector_analysis.py`).  `invalidArgument` and
`configurationError` are the additional error kinds named by the specification's
error-handling design; no code path in the embedded modules produces them. -/
inductive Err where
  | valueError
  | keyError
  | invalidArgument
  | configurationError
deriving DecidableEq

/-! ### Elementwise vector operations (torch tensor arithmetic on flat vectors) -/

/-- Elementwise addition of two flat tensors (`torch` `+`). -/
def vadd (x y : List ℚ) : List ℚ := List.zipWith (· + ·) x y

/-- Elementwise subtraction (`torch` `-`). -/
def vsub (x y : List ℚ) : List ℚ := List.zipWith (· - ·) x y

/-- Elementwise division (`torch` `/`). -/
def vdiv (x y : List ℚ) : List ℚ := List.zipWith (· / ·) x y

/-- Scalar multiplication of a flat tensor. -/
def smul (a : ℚ) (x : List ℚ) : List ℚ := x.map (fun q => a * q)

/-- `torch.zeros(n)`. -/
def zeroVec (n : Nat) : List ℚ := List.replicate n 0

/-- Sum of a list of flat tensors, starting from `torch.zeros n`. -/
def vsum (n : Nat) (l : List (List ℚ)) : List ℚ := l.foldr vadd (zeroVec n)

/-- `np.cumsum`: running partial sums, same length as the input. -/
def cumsum : List ℚ → List ℚ
  | [] => []
  | x :: xs => x :: (cumsum xs).map (fun q => x + q)

/-- The batches produced by `torch.utils.data.DataLoader(dataset, batch_size = c,
shuffle=False)`: consecutive chunks of size `c`, the last one possibly smaller.
(The `DataLoader` requires `c ≥ 1`; for `c = 0` this definition degenerates to
size-1 chunks and is never used.) -/
def chunks (c : Nat) : List α → List (List α)
  | [] => []
  | x :: xs => (x :: xs.take (c - 1)) :: chunks c (xs.drop (c - 1))
termination_by l => l.length
decreasing_by simp [List.length_drop]; omega

/-! ### `src/utils/activation.py` -/

/-- A PyTorch activation module, as constructed by `get_activation`
(`nn.Softmax(dim=1)` records its `dim`, `nn.LeakyReLU(negative_slope=0.01)`
records its slope). -/
inductive Activation where
  | relu
  | sigmoid
  | tanh
  | softmax (dim : Nat)
  | leakyRelu (negative_slope : ℚ)
deriving DecidableEq

/-- Python `str.lower()` (ASCII), modelled characterwise on `String.data`. -/
def pyLower (s : String) : String := String.mk (s.data.map Char.toLower)

/-- `get_activation` (src/utils/activation.py lines 7-21): lowercase the name,
look it up in the five-entry dictionary, `raise ValueError` when absent. -/
def get_activation (activation_name : String) : Except Err Activation :=
  let n := pyLower activation_name
  if n = "relu" then .ok .relu
  else if n = "sigmoid" then .ok .sigmoid
  else if n = "tanh" then .ok .tanh
  else if n = "softmax" then .ok (.softmax 1)
  else if n = "leaky_relu" then .ok (.leakyRelu (1 / 100))
  else .error .valueError

/-! ### `src/utils/initialization.py` -/

/-- A layer as seen by `initialize_weights`: `weight = none` models a layer
without a `weight` attribute; `bias = none` models either no `bias` attribute
or `bias is None` (the code treats the two identically). -/
structure PyLayer where
  weight : Option (List ℚ)
  bias : Option (List ℚ)
deriving DecidableEq

/-- `initialize_weights` (src/utils/initialization.py lines 7-31).  The random
`nn.init` fills (`uniform_`, `xavier_uniform_`, `kaiming_normal_`, `normal_`)
are external and modelled by the oracle `rngInit`, keyed by the method name and
given the current weight tensor; `zeros_` and `ones_` are exact constant fills.
After a recognized weight initialization the bias, when present, is zero-filled. -/
def initialize_weights (rngInit : String → List ℚ → List ℚ)
    (layer : PyLayer) (method : String) : Except Err PyLayer :=
  match layer.weight with
  | none => .ok layer
  | some w =>
    let m := pyLower method
    let newWeight : Except Err (List ℚ) :=
      if m = "uniform" then .ok (rngInit "uniform" w)
      else if m = "xavier" then .ok (rngInit "xavier" w)
      else if m = "kaiming" then .ok (rngInit "kaiming" w)
      else if m = "zeros" then .ok (w.map (fun _ => 0))
      else if m = "ones" then .ok (w.map (fun _ => 1))
      else if m = "normal" then .ok (rngInit "normal" w)
      else .error .valueError
    match newWeight with
    | .error e => .error e
    | .ok w' => .ok ⟨some w', layer.bias.map (fun b => b.map (fun _ => 0))⟩

/-! ### `src/analysis/hessian.py` -/

/-- One batch's contribution inside `compute_hvp` (src/analysis/hessian.py,
lines 24-34 and 44-54):
`loss = loss_fn(model(data), targets) * batch_size / len(dataset)` followed by
the double-differentiation sequence `grad` / `dot with vector` / `grad`.
The external `torch.autograd` machinery is modelled by its mathematical meaning:
`loss_fn` uses mean reduction, so `loss = (Σ_e ℓ_e(θ)) / |batch| · |batch| / |dataset|`,
and since double differentiation is linear in the loss, the resulting flat HVP is
`(|batch| / |dataset|) · (1 / |batch|) · Σ_e H_e · v`, where `hvpEx e v` models the
per-example Hessian action `H_e · v` at the fixed current parameters. -/
def batchHVP (hvpEx : α → List ℚ → List ℚ) (numParams dsSize : Nat)
    (batch : List α) (v : List ℚ) : List ℚ :=
  smul ((batch.length : ℚ) / (dsSize : ℚ) * (1 / (batch.length : ℚ)))
    (vsum numParams (batch.map (fun e => hvpEx e v)))

/-- The value computed by `compute_hvp` (src/analysis/hessian.py lines 8-60).
`sqrtFn` models the external elementwise `torch.sqrt` (line 17 / line 58),
`hvpEx` the per-example double-backpropagation as in `batchHVP`, `numParams`
the model's total parameter count.  If a preconditioner `P` is given the probe
is divided elementwise by `sqrt P` first and the result divided by `sqrt P`
last; if `physical_batch_size` is `none` or `≥ len(dataset)` the whole dataset
is one batch, otherwise the `DataLoader` chunks are accumulated by `+=` onto
`torch.zeros(num_params)`. -/
def compute_hvp_val (sqrtFn : ℚ → ℚ) (hvpEx : α → List ℚ → List ℚ)
    (numParams : Nat) (dataset : List α) (vector : List ℚ)
    (physical_batch_size : Option Nat) (P : Option (List ℚ)) : List ℚ :=
  let v := match P with
    | none => vector
    | some p => vdiv vector (p.map sqrtFn)
  let flat_hvp := match physical_batch_size with
    | none => batchHVP hvpEx numParams dataset.length dataset v
    | some c =>
      if dataset.length ≤ c then
        batchHVP hvpEx numParams dataset.length dataset v
      else
        (chunks c dataset).foldl
          (fun acc batch => vadd acc (batchHVP hvpEx numParams dataset.length batch v))
          (zeroVec numParams)
  match P with
  | none => flat_hvp
  | some p => vdiv flat_hvp (p.map sqrtFn)

/-- `compute_hvp` itself.  The Python body contains no `raise` statement (in
particular the preconditioner is used unvalidated), so every call returns
normally. -/
def compute_hvp (sqrtFn : ℚ → ℚ) (hvpEx : α → List ℚ → List ℚ)
    (numParams : Nat) (dataset : List α) (vector : List ℚ)
    (physical_batch_size : Option Nat) (P : Option (List ℚ)) :
    Except Err (List ℚ) :=
  .ok (compute_hvp_val sqrtFn hvpEx numParams dataset vector physical_batch_size P)

/-- The eigenpair post-processing of `lanczos` (src/analysis/hessian.py
lines 79-83).  The call `eigsh(operator, k=neigs, which='LM', tol=1e-8)` is
external; its output is modelled as the inputs `eigenvalues` (length `k`) and
`eigenvectors` (a `dim × k` array given as its list of rows, each of length `k`).
The code returns `eigenvalues[::-1]` and `np.flip(eigenvectors, -1)` — the
eigenvalue list reversed and every row of the eigenvector matrix reversed
(reversing the column order). -/
def lanczos (eigenvalues : List ℚ) (eigenvectors : List (List ℚ)) :
    List ℚ × List (List ℚ) :=
  (eigenvalues.reverse, eigenvectors.map List.reverse)

/-- `compute_trajectory_length` (src/analysis/hessian.py lines 107-125).
The external `torch.norm` (Euclidean norm, an irrational real in general) is
modelled by the abstract parameter `norm`, applied to the elementwise difference
of consecutive snapshots exactly as in line 113. -/
def compute_trajectory_length (norm : List ℚ → ℚ)
    (param_history : List (List ℚ)) : List ℚ :=
  if param_history.length ≤ 1 then
    List.replicate param_history.length 0
  else
    let distances :=
      (param_history.zip (param_history.drop 1)).map
        (fun pq => norm (vsub pq.2 pq.1))
    let cum_distances := 0 :: cumsum distances
    if param_history.length < cum_distances.length then
      cum_distances.take param_history.length
    else if cum_distances.length < param_history.length then
      cum_distances ++
        List.replicate (param_history.length - cum_distances.length)
          (cum_distances.getLastD 0)
    else
      cum_distances

/-! ### `src/analysis/eigenvector_analysis.py` -/

/-- `np.unravel_index(i, shape)` with C (row-major) order: the multi-index whose
`k`-th coordinate is `(i / prod shape[k+1:]) % shape[k]`. -/
def unravel (i : Nat) : List Nat → List Nat
  | [] => []
  | d :: ds => (i / ds.prod) % d :: unravel (i % ds.prod) ds

/-- Row-major flattening, the inverse of `unravel` on in-range indices. -/
def ravel : List Nat → List Nat → Nat
  | [], _ => 0
  | c :: cs, ds => c * (ds.drop 1).prod + ravel cs (ds.drop 1)

/-- One value of the `create_parameter_mapping` dictionary
(src/analysis/eigenvector_analysis.py lines 20-26): the Python dict
`{'name': …, 'layer': …, 'coordinates': …, 'shape': …, 'type': …}`. -/
structure ParamInfo where
  name : String
  layer : String
  coordinates : List Nat
  shape : List Nat
  type : String
deriving DecidableEq

/-- The `layer` field: `name.split('.')[0] if '.' in name else name`.
Python `split('.')[0]` is the longest prefix of the name containing no `'.'`,
modelled characterwise by `takeWhile`; membership `'.' in name` is character
membership in `name.data`. -/
def layerOfName (name : String) : String :=
  if name.data.contains '.' then String.mk (name.data.takeWhile (fun c => c ≠ '.'))
  else name

/-- The `type` field: `'bias' if name.endswith('bias') else 'weight'`.
Python `endswith('bias')` holds iff the last four characters are `bias`,
modelled by comparing the length-4 tail of `name.data`. -/
def typeOfName (name : String) : String :=
  if name.data.drop (name.data.length - "bias".data.length) = "bias".data
  then "bias" else "weight"

/-- The dictionary entry built for flat-local index `i` of parameter
`(name, shape)`. -/
def mkParamInfo (name : String) (shape : List Nat) (i : Nat) : ParamInfo :=
  { name := name
    layer := layerOfName name
    coordinates := unravel i shape
    shape := shape
    type := typeOfName name }

/-- The loop of `create_parameter_mapping` (lines 13-28): for each `(name, param)`
in order, insert keys `flat_idx + i` for `i < param.numel()`, then advance
`flat_idx` by `param.numel()`.  A parameter is modelled as its `(name, shape)`
pair; `numel` is the product of the shape.  The insertion-ordered Python dict is
modelled as the association list of its `(key, value)` pairs in insertion order. -/
def mappingOf : Nat → List (String × List Nat) → List (Nat × ParamInfo)
  | _, [] => []
  | flat_idx, (name, shape) :: rest =>
    (List.range shape.prod).map (fun i => (flat_idx + i, mkParamInfo name shape i))
      ++ mappingOf (flat_idx + shape.prod) rest

/-- `create_parameter_mapping` (lines 9-30).  The body contains no `raise`
statement: every model, including one with zero parameters, yields an `.ok`
dictionary. -/
def create_parameter_mapping (params : List (String × List Nat)) :
    Except Err (List (Nat × ParamInfo)) :=
  .ok (mappingOf 0 params)

/-- Total parameter count of a model given as its `(name, shape)` list. -/
def numParamsOf (params : List (String × List Nat)) : Nat :=
  (params.map (fun p => p.2.prod)).sum

/-- The documented contract of the external call `np.argsort(l)` (default
`kind='quicksort'`): the result is some permutation of the positions
`0..len l - 1` along which the values of `l` are non-decreasing.  The default
sort is not stable, so the relative order of positions holding equal values is
unspecified; any function whose output satisfies this predicate is an
admissible `np.argsort`. -/
def isArgsortOf (l : List ℚ) (idxs : List Nat) : Prop :=
  idxs.Perm (List.range l.length)
    ∧ idxs.Pairwise (fun i j => l.getD i 0 ≤ l.getD j 0)

instance (l : List ℚ) (idxs : List Nat) : Decidable (isArgsortOf l idxs) := by
  unfold isArgsortOf; exact inferInstance

/-- Python slice `xs[-k:]`: the last `k` elements — except that `k = 0` gives
`xs[0:]`, the whole list. -/
def lastSlice (k : Nat) (xs : List α) : List α :=
  if k = 0 then xs else xs.drop (xs.length - k)

/-- One record of the `top_contributors` list (lines 81-89), mirroring the
Python dict appended for each selected index. -/
structure ContributorEntry where
  index : Nat
  param_name : String
  layer : String
  coordinates : List Nat
  contribution : ℚ
  abs_contribution : ℚ
  param_type : String
deriving DecidableEq

/-- The result of `analyze_eigenvector`: a layer-contribution dict (insertion
ordered) when `by_layer`, else the top-contributors list. -/
inductive AnalyzeResult where
  | layers (contributions : List (String × ℚ))
  | top (contributors : List ContributorEntry)
deriving DecidableEq

/-- The `by_layer` accumulation step (lines 65-69): `if layer not in dict:
dict[layer] = 0` then `dict[layer] += val`, preserving insertion order. -/
def addToLayer (acc : List (String × ℚ)) (layer : String) (val : ℚ) :
    List (String × ℚ) :=
  match acc.lookup layer with
  | some _ => acc.map (fun kv => if kv.1 = layer then (kv.1, kv.2 + val) else kv)
  | none => acc ++ [(layer, val)]

/-- The `by_layer` loop over `enumerate(abs_contrib)`: each `param_mapping[idx]`
dict lookup raises `KeyError` when the key is absent. -/
def layerLoop (param_mapping : List (Nat × ParamInfo)) :
    List (Nat × ℚ) → List (String × ℚ) → Except Err (List (String × ℚ))
  | [], acc => .ok acc
  | (idx, val) :: rest, acc =>
    match param_mapping.lookup idx with
    | none => .error .keyError
    | some info => layerLoop param_mapping rest (addToLayer acc info.layer val)

/-- The top-contributors loop (lines 76-89) over `top_indices`; again each
`param_mapping[idx]` lookup raises `KeyError` when absent.  `contribution`
is `float(eigenvector[idx])` — indices produced by `argsort` are always within
the eigenvector, read here with `getD`. -/
def topLoop (param_mapping : List (Nat × ParamInfo)) (eigenvector : List ℚ) :
    List Nat → Except Err (List ContributorEntry)
  | [] => .ok []
  | idx :: rest =>
    match param_mapping.lookup idx with
    | none => .error .keyError
    | some info =>
      match topLoop param_mapping eigenvector rest with
      | .error e => .error e
      | .ok tail =>
        .ok ({ index := idx
               param_name := info.name
               layer := info.layer
               coordinates := info.coordinates
               contribution := eigenvector.getD idx 0
               abs_contribution := |eigenvector.getD idx 0|
               param_type := info.type } :: tail)

/-- `analyze_eigenvector` (lines 57-91): take absolute contributions; if
`by_layer`, fold them into the per-layer dict; otherwise select
`np.argsort(abs_contrib)[-top_k:][::-1]` and build the contributor records.
The external `np.argsort` call is the parameter `np_argsort`; the theorems
below assume only its documented contract `isArgsortOf` (NumPy's default
unstable quicksort guarantees no particular tie order), and concrete
instances below supply an explicit admissible output. -/
def analyze_eigenvector (np_argsort : List ℚ → List Nat) (eigenvector : List ℚ)
    (param_mapping : List (Nat × ParamInfo)) (top_k : Nat) (by_layer : Bool) :
    Except Err AnalyzeResult :=
  let abs_contrib := eigenvector.map (fun q => |q|)
  if by_layer then
    match layerLoop param_mapping (abs_contrib.enum) [] with
    | .error e => .error e
    | .ok d => .ok (.layers d)
  else
    let top_indices := (lastSlice top_k (np_argsort abs_contrib)).reverse
    match topLoop param_mapping eigenvector top_indices with
    | .error e => .error e
    | .ok l => .ok (.top l)

/-- The flat indices of an `analyze_eigenvector` top-contributor result, in
result order (empty for a `by_layer` result). -/
def resultIndices : AnalyzeResult → List Nat
  | .layers _ => []
  | .top l => l.map (fun e => e.index)

/-- Whether an embedded call returned normally. -/
def isOk : Except Err β → Prop
  | .ok _ => True
  | .error _ => False

instance (x : Except Err β) : Decidable (isOk x) := by
  unfold isOk; split <;> exact inferInstance

instance {γ : Type} [DecidableEq γ] : DecidableEq (Except Err γ) := fun a b =>
  match a, b with
  | .ok x, .ok y => decidable_of_iff (x = y) (by simp)
  | .ok _, .error _ => isFalse (by simp)
  | .error _, .ok _ => isFalse (by simp)
  | .error e, .error f => decidable_of_iff (e = f) (by simp)

/-! ### Vector-algebra lemmas -/

theorem length_vadd (x y : List ℚ) : (vadd x y).length = min x.length y.length := by
  simp [vadd]

theorem vadd_zeroVec_right {x : List ℚ} {n : Nat} (h : x.length = n) :
    vadd x (zeroVec n) = x := by
  induction x generalizing n with
  | nil => simp [vadd]
  | cons a x ih =>
    cases n with
    | zero => simp at h
    | succ m => simpa [vadd, zeroVec, List.replicate_succ] using ih (by simpa using h)

theorem vadd_zeroVec_left {x : List ℚ} {n : Nat} (h : x.length = n) :
    vadd (zeroVec n) x = x := by
  induction x generalizing n with
  | nil => simp [vadd]
  | cons a x ih =>
    cases n with
    | zero => simp at h
    | succ m => simpa [vadd, zeroVec, List.replicate_succ] using ih (by simpa using h)

theorem vadd_assoc (x y z : List ℚ) : vadd (vadd x y) z = vadd x (vadd y z) := by
  induction x generalizing y z with
  | nil => simp [vadd]
  | cons a x ih =>
    cases y with
    | nil => simp [vadd]
    | cons b y =>
      cases z with
      | nil => simp [vadd]
      | cons c z =>
        have h := ih y z
        simp only [vadd, List.zipWith_cons_cons, List.cons.injEq] at h ⊢
        exact ⟨add_assoc a b c, h⟩

theorem length_smul (a : ℚ) (x : List ℚ) : (smul a x).length = x.length := by
  simp [smul]

theorem smul_vadd (a : ℚ) (x y : List ℚ) :
    smul a (vadd x y) = vadd (smul a x) (smul a y) := by
  induction x generalizing y with
  | nil => simp [vadd, smul]
  | cons b x ih =>
    cases y with
    | nil => simp [vadd, smul]
    | cons c y =>
      have h := ih y
      simp only [vadd, smul, List.zipWith_cons_cons, List.map_cons,
        List.cons.injEq] at h ⊢
      exact ⟨mul_add a b c, h⟩

theorem smul_zeroVec (a : ℚ) (n : Nat) : smul a (zeroVec n) = zeroVec n := by
  simp [smul, zeroVec, List.map_replicate]

theorem vsum_nil (n : Nat) : vsum n [] = zeroVec n := rfl

theorem vsum_cons (n : Nat) (x : List ℚ) (l : List (List ℚ)) :
    vsum n (x :: l) = vadd x (vsum n l) := rfl

theorem vsum_length {n : Nat} {l : List (List ℚ)} (h : ∀ x ∈ l, x.length = n) :
    (vsum n l).length = n := by
  induction l with
  | nil => simp [vsum, zeroVec]
  | cons x l ih =>
    have hx : x.length = n := h x (by simp)
    have hl : (vsum n l).length = n := ih (fun y hy => h y (by simp [hy]))
    simp [vsum_cons, length_vadd, hx, hl]

theorem foldr_vadd_acc {n : Nat} {l : List (List ℚ)} {acc : List ℚ}
    (h : ∀ x ∈ l, x.length = n) (hacc : acc.length = n) :
    l.foldr vadd acc = vadd (vsum n l) acc := by
  induction l with
  | nil => simp [vsum_nil, vadd_zeroVec_left hacc]
  | cons x l ih =>
    have := ih (fun y hy => h y (by simp [hy]))
    simp [vsum_cons, List.foldr_cons, this, vadd_assoc]

theorem vsum_append {n : Nat} {l₁ l₂ : List (List ℚ)}
    (h₁ : ∀ x ∈ l₁, x.length = n) (h₂ : ∀ x ∈ l₂, x.length = n) :
    vsum n (l₁ ++ l₂) = vadd (vsum n l₁) (vsum n l₂) := by
  unfold vsum
  rw [List.foldr_append]
  exact foldr_vadd_acc h₁ (vsum_length h₂)

theorem smul_vsum (a : ℚ) {n : Nat} (l : List (List ℚ)) :
    vsum n (l.map (fun x => smul a x)) = smul a (vsum n l) := by
  induction l with
  | nil => simp [vsum_nil, smul_zeroVec]
  | cons x l ih => simp [vsum_cons, ih, smul_vadd]

theorem foldl_vadd {n : Nat} (l : List (List ℚ)) (acc : List ℚ)
    (h : ∀ x ∈ l, x.length = n) (hacc : acc.length = n) :
    l.foldl vadd acc = vadd acc (vsum n l) := by
  induction l generalizing acc with
  | nil => simp [vsum_nil, vadd_zeroVec_right hacc]
  | cons x l ih =>
    have hx : x.length = n := h x (by simp)
    have hstep : (vadd acc x).length = n := by simp [length_vadd, hx, hacc]
    rw [List.foldl_cons,
      ih (vadd acc x) (fun y hy => h y (List.mem_cons_of_mem _ hy)) hstep,
      vsum_cons, vadd_assoc]

/-! ### Chunking lemmas -/

theorem chunks_flatten (c : Nat) (l : List α) : (chunks c l).flatten = l := by
  induction l using chunks.induct (c := c) with
  | case1 => simp [chunks]
  | case2 x xs ih => simp [chunks, ih]

theorem chunks_ne_nil (c : Nat) (l : List α) :
    ∀ b ∈ chunks c l, b ≠ [] := by
  induction l using chunks.induct (c := c) with
  | case1 => simp [chunks]
  | case2 x xs ih =>
    intro b hb
    simp only [chunks, List.mem_cons] at hb
    rcases hb with h | h
    · simp [h]
    · exact ih b h

theorem mem_of_mem_chunks {c : Nat} {l : List α} {b : List α} {e : α}
    (hb : b ∈ chunks c l) (he : e ∈ b) : e ∈ l := by
  have : e ∈ (chunks c l).flatten := List.mem_flatten.2 ⟨b, hb, he⟩
  simpa [chunks_flatten] using this

/-! ### HVP accumulation lemmas -/

theorem batchHVP_length {hvpEx : α → List ℚ → List ℚ} {n : Nat} {batch : List α}
    {v : List ℚ} (dsSize : Nat)
    (h : ∀ e ∈ batch, (hvpEx e v).length = n) :
    (batchHVP hvpEx n dsSize batch v).length = n := by
  unfold batchHVP
  rw [length_smul]
  exact vsum_length (by intro x hx; rcases List.mem_map.1 hx with ⟨e, he, rfl⟩; exact h e he)

theorem batchHVP_of_ne_nil {hvpEx : α → List ℚ → List ℚ} {n : Nat}
    {batch : List α} {v : List ℚ} {dsSize : Nat} (hb : batch ≠ []) :
    batchHVP hvpEx n dsSize batch v
      = smul (1 / (dsSize : ℚ)) (vsum n (batch.map (fun e => hvpEx e v))) := by
  unfold batchHVP
  congr 1
  have hlen : ((batch.length : ℚ)) ≠ 0 := by
    exact_mod_cast (List.length_pos.2 hb).ne'
  rw [div_mul_div_comm, mul_one, mul_comm (dsSize : ℚ) (batch.length : ℚ),
    div_mul_eq_div_div, div_self hlen]

theorem vsum_flatten {n : Nat} (f : α → List ℚ) (L : List (List α))
    (h : ∀ e ∈ L.flatten, (f e).length = n) :
    vsum n (L.map (fun b => vsum n (b.map f))) = vsum n (L.flatten.map f) := by
  induction L with
  | nil => simp
  | cons b L ih =>
    have hb : ∀ x ∈ b.map f, x.length = n := by
      intro x hx; rcases List.mem_map.1 hx with ⟨e, he, rfl⟩
      exact h e (by simp [he])
    have hL : ∀ x ∈ L.flatten.map f, x.length = n := by
      intro x hx; rcases List.mem_map.1 hx with ⟨e, he, rfl⟩
      exact h e (by simp [he])
    have hL' : ∀ e ∈ L.flatten, (f e).length = n := by
      intro e he; exact h e (by simp [he])
    simp only [List.map_cons, vsum_cons, List.flatten_cons, List.map_append]
    rw [vsum_append hb hL, ih hL']

/-- The chunked accumulation loop of `compute_hvp` (lines 37-54) equals the
single-pass value: summing the per-chunk contributions, each weighted by
`chunk_size / dataset_size` over the mean chunk loss, reproduces
`(1 / dataset_size) · Σ_e H_e v` exactly. -/
theorem chunked_loop_eq {hvpEx : α → List ℚ → List ℚ} {n : Nat} {c : Nat}
    (dataset : List α) (v : List ℚ)
    (h : ∀ e ∈ dataset, (hvpEx e v).length = n) :
    ((chunks c dataset).foldl
        (fun acc batch => vadd acc (batchHVP hvpEx n dataset.length batch v))
        (zeroVec n))
      = smul (1 / (dataset.length : ℚ)) (vsum n (dataset.map (fun e => hvpEx e v))) := by
  have hchunklen : ∀ b ∈ chunks c dataset, ∀ e ∈ b, (hvpEx e v).length = n :=
    fun b hb e he => h e (mem_of_mem_chunks hb he)
  have hperchunk : ∀ b ∈ chunks c dataset,
      batchHVP hvpEx n dataset.length b v
        = smul (1 / (dataset.length : ℚ)) (vsum n (b.map (fun e => hvpEx e v))) :=
    fun b hb => batchHVP_of_ne_nil (chunks_ne_nil c dataset b hb)
  have hmaplen : ∀ x ∈ (chunks c dataset).map
      (fun b => batchHVP hvpEx n dataset.length b v), x.length = n := by
    intro x hx
    rcases List.mem_map.1 hx with ⟨b, hb, rfl⟩
    exact batchHVP_length _ (hchunklen b hb)
  rw [← List.foldl_map (fun b => batchHVP hvpEx n dataset.length b v) vadd]
  rw [foldl_vadd _ _ hmaplen (by simp [zeroVec])]
  rw [vadd_zeroVec_left (vsum_length hmaplen)]
  rw [List.map_congr_left hperchunk]
  have hs := smul_vsum (1 / (dataset.length : ℚ)) (n := n)
    ((chunks c dataset).map (fun b => vsum n (b.map fun e => hvpEx e v)))
  rw [List.map_map] at hs
  simp only [Function.comp_def] at hs
  rw [hs, vsum_flatten _ _ (by simpa [chunks_flatten] using h), chunks_flatten]

/-! ### Claim C1 -/

/-- C1: For every model, loss function, dataset, probe vector and chunk size,
the chunked HVP computation of `compute_hvp` (iterating fixed-size chunks,
weighting each chunk's loss by its size over the dataset size and summing the
per-chunk contributions) returns, over exact arithmetic, the same length-`n`
vector as the unchunked computation (`physical_batch_size = None`; the
`≥ dataset size` case takes the unchunked branch of the same call), for the
same probe, preconditioner and fixed per-example Hessian actions. -/
theorem hvp_chunked_eq_unchunked {α : Type} (sqrtFn : ℚ → ℚ)
    (hvpEx : α → List ℚ → List ℚ) (n : Nat) (dataset : List α)
    (vector : List ℚ) (c : Nat) (P : Option (List ℚ)) (hc : 0 < c)
    (hlen : ∀ e ∈ dataset, ∀ w, (hvpEx e w).length = n) :
    compute_hvp sqrtFn hvpEx n dataset vector (some c) P
        = compute_hvp sqrtFn hvpEx n dataset vector none P
      ∧ (compute_hvp_val sqrtFn hvpEx n dataset vector none none).length = n := by
  constructor
  · cases P with
    | none =>
      unfold compute_hvp compute_hvp_val
      by_cases hle : dataset.length ≤ c
      · simp [hle]
      · have hne : dataset ≠ [] := by
          intro h0; subst h0; simp at hle
        simp only [hle, if_false]
        rw [chunked_loop_eq dataset vector (fun e he => hlen e he vector),
          batchHVP_of_ne_nil hne]
    | some p =>
      unfold compute_hvp compute_hvp_val
      by_cases hle : dataset.length ≤ c
      · simp [hle]
      · have hne : dataset ≠ [] := by
          intro h0; subst h0; simp at hle
        simp only [hle, if_false]
        rw [chunked_loop_eq dataset (vdiv vector (p.map sqrtFn))
            (fun e he => hlen e he _),
          batchHVP_of_ne_nil hne]
  · unfold compute_hvp_val
    exact batchHVP_length _ (fun e he => hlen e he vector)

/-- Witness for C1 at a concrete model (two parameters, per-example Hessian
action `e ↦ [e·v₀, e]`), dataset `[1, 2, 3]`, probe `[5, 7]`, chunk size 2. -/
theorem hvp_chunked_eq_unchunked_witness :
    (0 : Nat) < 2 ∧
      compute_hvp (fun q => q) (fun (e : ℚ) (w : List ℚ) => [e * w.headD 0, e])
          2 [1, 2, 3] [5, 7] (some 2) none
        = compute_hvp (fun q => q) (fun (e : ℚ) (w : List ℚ) => [e * w.headD 0, e])
          2 [1, 2, 3] [5, 7] none none :=
  ⟨by decide,
    (hvp_chunked_eq_unchunked (fun q => q)
      (fun (e : ℚ) (w : List ℚ) => [e * w.headD 0, e]) 2 [1, 2, 3] [5, 7] 2 none
      (by decide) (fun _ _ _ => rfl)).1⟩

/-! ### Claim C5 -/

theorem cumsum_length (l : List ℚ) : (cumsum l).length = l.length := by
  induction l with
  | nil => simp [cumsum]
  | cons x xs ih => simp [cumsum, ih]

/-- `(0 :: np.cumsum ds)[i]` is the sum of the first `i` entries of `ds`. -/
theorem cumsum_getD (ds : List ℚ) :
    ∀ i, i ≤ ds.length → (0 :: cumsum ds).getD i 0 = (ds.take i).sum := by
  induction ds with
  | nil =>
    intro i hi
    have h0 : i = 0 := by simpa using hi
    subst h0; simp
  | cons d tl ih =>
    intro i hi
    match i with
    | 0 => simp
    | 1 => simp [cumsum]
    | (k + 2) =>
      have hk : k < tl.length := by
        simp only [List.length_cons] at hi; omega
      have hkcs : k < (cumsum tl).length := by
        simpa [cumsum_length] using hk
      have hkc : k < ((cumsum tl).map (fun q => d + q)).length := by
        simpa [cumsum_length] using hk
      show ((cumsum tl).map (fun q => d + q)).getD k 0 = _
      rw [List.getD_eq_getElem _ _ hkc, List.getElem_map]
      have hrec := ih (k + 1) (by omega)
      have hgd : (cumsum tl)[k] = (0 :: cumsum tl).getD (k + 1) 0 := by
        rw [List.getD_eq_getElem _ _ (by simpa using Nat.succ_lt_succ hkcs)]
        simp
      rw [hgd, hrec]
      simp [List.take_succ_cons, add_comm]

/-- The `i`-th recorded distance is the `norm` of the difference of snapshots
`i+1` and `i`. -/
theorem distances_getD (norm : List ℚ → ℚ) (ph : List (List ℚ)) (i : Nat)
    (h : i + 1 < ph.length) :
    ((ph.zip (ph.drop 1)).map (fun pq => norm (vsub pq.2 pq.1))).getD i 0
      = norm (vsub (ph.getD (i + 1) []) (ph.getD i [])) := by
  have hzi : i < (ph.zip (ph.drop 1)).length := by
    simp only [List.length_zip, List.length_drop]; omega
  rw [List.getD_eq_getElem _ _ (by simpa using hzi)]
  simp only [List.getElem_map, List.getElem_zip, List.getElem_drop]
  rw [List.getD_eq_getElem _ _ (by omega : i + 1 < ph.length),
    List.getD_eq_getElem _ _ (by omega : i < ph.length)]
  have hcomm : (1 : Nat) + i = i + 1 := Nat.add_comm 1 i
  simp [hcomm]

/-- C5: For every non-empty snapshot history, `compute_trajectory_length`
returns one cumulative length per snapshot, starting at `0`, each next entry
adding the norm of the difference of consecutive snapshots (the external
Euclidean `torch.norm` is the abstract parameter `norm`); in particular a
single snapshot yields `[0]`. -/
theorem trajectory_length_spec (norm : List ℚ → ℚ)
    (param_history : List (List ℚ)) (hne : param_history ≠ []) :
    (compute_trajectory_length norm param_history).length = param_history.length
      ∧ (compute_trajectory_length norm param_history).getD 0 0 = 0
      ∧ ∀ i, i + 1 < param_history.length →
          (compute_trajectory_length norm param_history).getD (i + 1) 0
            = (compute_trajectory_length norm param_history).getD i 0
              + norm (vsub (param_history.getD (i + 1) [])
                  (param_history.getD i [])) := by
  by_cases hle : param_history.length ≤ 1
  · have h1 : param_history.length = 1 := by
      have := List.length_pos.2 hne; omega
    unfold compute_trajectory_length
    rw [if_pos hle, h1]
    refine ⟨rfl, rfl, ?_⟩
    intro i hi; omega
  · have h2 : 2 ≤ param_history.length := by omega
    have hdl : ((param_history.zip (param_history.drop 1)).map
        (fun pq => norm (vsub pq.2 pq.1))).length = param_history.length - 1 := by
      simp [List.length_zip]
    have hcl : (0 :: cumsum ((param_history.zip (param_history.drop 1)).map
        (fun pq => norm (vsub pq.2 pq.1)))).length = param_history.length := by
      simp only [List.length_cons, cumsum_length, hdl]; omega
    have hres : compute_trajectory_length norm param_history
        = 0 :: cumsum ((param_history.zip (param_history.drop 1)).map
            (fun pq => norm (vsub pq.2 pq.1))) := by
      unfold compute_trajectory_length
      rw [if_neg hle]
      simp only [hcl]
      rw [if_neg (lt_irrefl _), if_neg (lt_irrefl _)]
    rw [hres]
    refine ⟨hcl, rfl, ?_⟩
    intro i hi
    have hi' : i < ((param_history.zip (param_history.drop 1)).map
        (fun pq => norm (vsub pq.2 pq.1))).length := by rw [hdl]; omega
    rw [cumsum_getD _ (i + 1) (by rw [hdl]; omega),
      cumsum_getD _ i (by rw [hdl]; omega),
      List.sum_take_succ _ i hi']
    congr 1
    rw [← List.getD_eq_getElem _ 0 hi']
    exact distances_getD norm param_history i hi

/-- Witness for C5 at a two-snapshot history with the max-abs norm. -/
theorem trajectory_length_spec_witness :
    ([[1, 2], [4, 6]] : List (List ℚ)) ≠ [] ∧
      (compute_trajectory_length (fun v => (v.map (fun q => |q|)).sum)
          [[1, 2], [4, 6]]).length = 2 :=
  ⟨by decide,
    by
      have h := trajectory_length_spec (fun v => (v.map (fun q => |q|)).sum)
        [[1, 2], [4, 6]] (by decide)
      simpa using h.1⟩

/-! ### Claim C10 -/

/-- C10: `get_activation` is case-insensitive — its result depends only on the
lowercased name — and it returns a module exactly when the lowercased name is
one of the five supported names, raising `ValueError` otherwise. -/
theorem get_activation_spec :
    (∀ s t : String, pyLower s = pyLower t → get_activation s = get_activation t)
      ∧ ∀ s : String,
          isOk (get_activation s)
            ↔ pyLower s ∈ ["relu", "sigmoid", "tanh", "softmax", "leaky_relu"] := by
  constructor
  · intro s t h
    simp only [get_activation]
    rw [h]
  · intro s
    simp only [get_activation]
    split_ifs <;> simp_all [isOk]

/-- Witness for C10: `"ReLU"` and `"relu"` lowercase equally, hence resolve to
the same module, and `"SOFTMAX"` is accepted. -/
theorem get_activation_spec_witness :
    get_activation "ReLU" = get_activation "relu"
      ∧ isOk (get_activation "SOFTMAX") :=
  ⟨get_activation_spec.1 "ReLU" "relu" (by decide),
    (get_activation_spec.2 "SOFTMAX").2 (by decide)⟩

/-! ### Claim C9 -/

theorem map_const_zero (b : List ℚ) :
    b.map (fun _ => (0 : ℚ)) = List.replicate b.length 0 := by
  induction b with
  | nil => rfl
  | cons x xs ih => simp [ih, List.replicate_succ]

/-- C9: for every layer owning a weight and a non-`None` bias, every supported
initialization method zero-fills the bias, whichever method was chosen for the
weights (the random weight fills are the abstract oracle `rngInit`). -/
theorem initialize_weights_zeroes_bias (rngInit : String → List ℚ → List ℚ)
    (layer : PyLayer) (method : String) (w b : List ℚ)
    (hw : layer.weight = some w) (hb : layer.bias = some b)
    (hm : pyLower method ∈ ["uniform", "xavier", "kaiming", "zeros", "ones", "normal"]) :
    ∃ w', initialize_weights rngInit layer method
        = .ok ⟨some w', some (List.replicate b.length 0)⟩ := by
  have hzero := map_const_zero b
  unfold initialize_weights
  rw [hw]
  simp only [List.mem_cons, List.not_mem_nil, or_false] at hm
  rcases hm with h | h | h | h | h | h
  · exact ⟨rngInit "uniform" w, by simp [h, hb, hzero]⟩
  · exact ⟨rngInit "xavier" w, by simp [h, hb, hzero]⟩
  · exact ⟨rngInit "kaiming" w, by simp [h, hb, hzero]⟩
  · exact ⟨w.map (fun _ => 0), by simp [h, hb, hzero]⟩
  · exact ⟨w.map (fun _ => 1), by simp [h, hb, hzero]⟩
  · exact ⟨rngInit "normal" w, by simp [h, hb, hzero]⟩

/-- Witness for C9 at method `"Kaiming"` on a layer with weight `[1, 2]` and
bias `[3, 4]`. -/
theorem initialize_weights_zeroes_bias_witness :
    pyLower "Kaiming" ∈ ["uniform", "xavier", "kaiming", "zeros", "ones", "normal"]
      ∧ ∃ w', initialize_weights (fun _ v => v) ⟨some [1, 2], some [3, 4]⟩ "Kaiming"
          = .ok ⟨some w', some (List.replicate 2 0)⟩ :=
  ⟨by decide, by
    have h := initialize_weights_zeroes_bias (fun _ v => v)
      ⟨some [1, 2], some [3, 4]⟩ "Kaiming" [1, 2] [3, 4] rfl rfl (by decide)
    simpa using h⟩

/-! ### Claim C3 -/

/-- C3 counterexample: a solver output `[2, 1, 3]` that is unordered (as the
claim explicitly allows) is merely reversed by `lanczos` to `[3, 1, 2]`, which
is not sorted by descending eigenvalue. -/
theorem lanczos_unordered_counterexample :
    (lanczos [2, 1, 3] [[5, 6, 7]]).1 = [3, 1, 2]
      ∧ ¬ List.Pairwise (fun a b : ℚ => b ≤ a) (lanczos [2, 1, 3] [[5, 6, 7]]).1 := by
  constructor
  · rfl
  · decide

/-- C3 (amended): when the underlying solver returns eigenvalues in ascending
order (as `eigsh` does), the reversal in `lanczos` yields them in descending
order, and output eigenvector column `i` is input column `k - 1 - i`, i.e. the
column reordering matches the eigenvalue reordering. -/
theorem lanczos_sorted_of_ascending (eigenvalues : List ℚ)
    (eigenvectors : List (List ℚ)) (k : Nat)
    (hasc : List.Pairwise (fun a b : ℚ => a ≤ b) eigenvalues)
    (hk : eigenvalues.length = k)
    (hrows : ∀ row ∈ eigenvectors, row.length = k) :
    List.Pairwise (fun a b : ℚ => b ≤ a) (lanczos eigenvalues eigenvectors).1
      ∧ (∀ i, i < k →
          (lanczos eigenvalues eigenvectors).1.getD i 0
            = eigenvalues.getD (k - 1 - i) 0)
      ∧ ∀ r, r < eigenvectors.length → ∀ i, i < k →
          ((lanczos eigenvalues eigenvectors).2.getD r []).getD i 0
            = (eigenvectors.getD r []).getD (k - 1 - i) 0 := by
  subst hk
  refine ⟨List.pairwise_reverse.mpr hasc, ?_, ?_⟩
  · intro i hi
    have hir : i < eigenvalues.reverse.length := by simpa using hi
    show eigenvalues.reverse.getD i 0 = _
    rw [List.getD_eq_getElem _ _ hir, List.getElem_reverse,
      List.getD_eq_getElem _ _
        (by omega : eigenvalues.length - 1 - i < eigenvalues.length)]
  · intro r hr i hi
    have hrm : r < (eigenvectors.map List.reverse).length := by simpa using hr
    show ((eigenvectors.map List.reverse).getD r []).getD i 0 = _
    rw [List.getD_eq_getElem _ _ hrm, List.getElem_map,
      List.getD_eq_getElem _ _ hr]
    have hlen : eigenvectors[r].length = eigenvalues.length :=
      hrows _ (List.getElem_mem hr)
    have hirow : i < eigenvectors[r].reverse.length := by simpa [hlen] using hi
    rw [List.getD_eq_getElem _ _ hirow, List.getElem_reverse,
      ← List.getD_eq_getElem eigenvectors[r] 0
        (by omega : eigenvectors[r].length - 1 - i < eigenvectors[r].length)]
    rw [hlen]

/-- Witness for C3 (amended) at the ascending solver output `[1, 2]` with
eigenvector rows `[[10, 20], [30, 40]]`. -/
theorem lanczos_sorted_of_ascending_witness :
    List.Pairwise (fun a b : ℚ => a ≤ b) [1, 2]
      ∧ List.Pairwise (fun a b : ℚ => b ≤ a)
          (lanczos [1, 2] [[10, 20], [30, 40]]).1 :=
  ⟨by decide,
    (lanczos_sorted_of_ascending [1, 2] [[10, 20], [30, 40]] 2 (by decide) rfl
      (by decide)).1⟩

/-! ### Claim C6 -/

/-- C6 counterexample: a call with preconditioner `P = [-1]`, which has a
non-positive entry, does not fail — `compute_hvp` contains no validation and
returns a vector (the external `torch.sqrt`, which would produce NaN there, is
the abstract `sqrtFn`, here instantiated constantly `1`). -/
theorem hvp_nonpositive_P_counterexample :
    ((-1 : ℚ) ≤ 0)
      ∧ compute_hvp (fun _ => 1) (fun (_ : Unit) (w : List ℚ) => w) 1 [()] [4]
          none (some [-1]) = .ok [4] := by
  constructor
  · decide
  · show Except.ok (compute_hvp_val _ _ _ _ _ _ _) = _
    norm_num [compute_hvp_val, batchHVP, vsum, vadd, vdiv, smul, zeroVec]

/-- C6 (amended): `compute_hvp` performs no validation of the preconditioner.
For every `P` containing a non-positive entry the call still returns normally:
the probe is divided elementwise by `sqrt P` before the HVP core and the result
divided by `sqrt P` afterwards, exactly as in the all-positive case. -/
theorem hvp_nonpositive_P_rescales {α : Type} (sqrtFn : ℚ → ℚ)
    (hvpEx : α → List ℚ → List ℚ) (n : Nat) (dataset : List α)
    (vector : List ℚ) (pbs : Option Nat) (p : List ℚ)
    (hp : ∃ x ∈ p, x ≤ 0) :
    compute_hvp sqrtFn hvpEx n dataset vector pbs (some p)
      = .ok (vdiv
          (compute_hvp_val sqrtFn hvpEx n dataset (vdiv vector (p.map sqrtFn))
            pbs none)
          (p.map sqrtFn)) := by
  cases pbs <;> rfl

/-- Witness for C6 (amended) at `P = [-1, 4]`. -/
theorem hvp_nonpositive_P_rescales_witness :
    (∃ x ∈ ([-1, 4] : List ℚ), x ≤ 0)
      ∧ compute_hvp (fun q => q) (fun (_ : Unit) (w : List ℚ) => w) 1 [()] [9]
          none (some [-1, 4])
        = .ok (vdiv
            (compute_hvp_val (fun q => q) (fun (_ : Unit) (w : List ℚ) => w) 1
              [()] (vdiv [9] (([-1, 4] : List ℚ).map (fun q => q))) none none)
            (([-1, 4] : List ℚ).map (fun q => q))) :=
  ⟨⟨-1, by decide, by decide⟩,
    hvp_nonpositive_P_rescales (fun q => q) (fun (_ : Unit) (w : List ℚ) => w)
      1 [()] [9] none [-1, 4] ⟨-1, by decide, by decide⟩⟩

/-! ### Mapping-key lemmas (claims C4 and C7) -/

theorem mappingOf_keys (flat : Nat) (params : List (String × List Nat)) :
    (mappingOf flat params).map Prod.fst
      = (List.range (numParamsOf params)).map (fun i => flat + i) := by
  induction params generalizing flat with
  | nil => simp [mappingOf, numParamsOf]
  | cons p rest ih =>
    obtain ⟨name, shape⟩ := p
    have hN : numParamsOf ((name, shape) :: rest)
        = shape.prod + numParamsOf rest := by
      simp [numParamsOf]
    rw [hN]
    simp only [mappingOf, List.map_append, List.map_map, ih, List.range_add,
      List.map_map]
    congr 1
    refine List.map_congr_left ?_
    intro a _
    simp only [Function.comp_def]
    omega

theorem create_parameter_mapping_keys (params : List (String × List Nat)) :
    (mappingOf 0 params).map Prod.fst = List.range (numParamsOf params) := by
  rw [mappingOf_keys]
  simp

/-! ### Claim C7 -/

/-- C7 counterexample: building the parameter index of a model exposing zero
parameters returns the empty index normally instead of failing with
`ConfigurationError` — no eager validation exists in `create_parameter_mapping`. -/
theorem create_parameter_mapping_empty_counterexample :
    create_parameter_mapping [] = .ok [] := rfl

/-- C7 (amended): `create_parameter_mapping` never fails: for every model,
including one exposing zero parameters, it returns an `.ok` index whose keys
are exactly the flat offsets `0..N-1` (the empty index when `N = 0`). -/
theorem create_parameter_mapping_total (params : List (String × List Nat)) :
    ∃ m, create_parameter_mapping params = .ok m
      ∧ m.map Prod.fst = List.range (numParamsOf params) :=
  ⟨mappingOf 0 params, rfl, create_parameter_mapping_keys params⟩

/-! ### Claim C4 -/

/-- Row-major flattening inverts `np.unravel_index` on in-range flat indices. -/
theorem ravel_unravel :
    ∀ (shape : List Nat) (i : Nat), i < shape.prod →
      ravel (unravel i shape) shape = i := by
  intro shape
  induction shape with
  | nil =>
    intro i hi
    have h0 : i = 0 := by simpa using Nat.lt_one_iff.1 (by simpa using hi)
    simp [unravel, ravel, h0]
  | cons d ds ih =>
    intro i hi
    have hprod : i < d * ds.prod := by simpa using hi
    have hP : 0 < ds.prod := by
      rcases Nat.eq_zero_or_pos ds.prod with h | h
      · rw [h, Nat.mul_zero] at hprod; omega
      · exact h
    have hdiv : i / ds.prod < d := (Nat.div_lt_iff_lt_mul hP).2 hprod
    simp only [unravel, ravel, List.drop_succ_cons, List.drop_zero]
    rw [ih (i % ds.prod) (Nat.mod_lt _ hP), Nat.mod_eq_of_lt hdiv]
    rw [Nat.mul_comm]
    exact Nat.div_add_mod i ds.prod

theorem unravel_injOn {shape : List Nat} {i j : Nat}
    (hi : i < shape.prod) (hj : j < shape.prod)
    (h : unravel i shape = unravel j shape) : i = j := by
  have := ravel_unravel shape i hi
  rw [h, ravel_unravel shape j hj] at this
  omega

theorem takeWhile_eq_self_of_no_dot {l : List Char}
    (h : l.contains '.' = false) : l.takeWhile (fun c => c ≠ '.') = l := by
  induction l with
  | nil => rfl
  | cons c cs ih =>
    simp only [List.contains_cons, Bool.or_eq_false_iff, beq_eq_false_iff_ne] at h
    simp only [List.takeWhile_cons]
    rw [if_pos (by simpa using (Ne.symm h.1)), ih h.2]

/-- `layerOfName` always equals the longest prefix of the name containing no
dot, i.e. the part of the dotted name before the first `'.'` (the whole name
when it has none). -/
theorem layerOfName_eq_takeWhile (name : String) :
    layerOfName name = String.mk (name.data.takeWhile (fun c => c ≠ '.')) := by
  unfold layerOfName
  split_ifs with h
  · rfl
  · obtain ⟨l⟩ := name
    simp only [Bool.not_eq_true] at h
    rw [takeWhile_eq_self_of_no_dot (by simpa using h)]

/-- `typeOfName` classifies `bias` exactly on names whose character list ends
with the literal suffix `bias`. -/
theorem typeOfName_bias_iff (name : String) :
    (typeOfName name = "bias" ↔ "bias".data <:+ name.data)
      ∧ (typeOfName name = "bias" ∨ typeOfName name = "weight") := by
  unfold typeOfName
  split_ifs with h
  · refine ⟨⟨fun _ => ?_, fun _ => rfl⟩, Or.inl rfl⟩
    rw [← h]
    exact List.drop_suffix _ _
  · refine ⟨⟨fun hw => absurd hw (by decide), fun hs => ?_⟩, Or.inr rfl⟩
    exfalso
    obtain ⟨t, ht⟩ := hs
    apply h
    rw [← ht]
    have hl : (t ++ "bias".data).length - "bias".data.length = t.length := by
      simp
    rw [hl, List.drop_left]

/-- Every entry of the mapping built for parameter list `params` carries the
name of one of those parameters. -/
theorem mappingOf_name_mem :
    ∀ (params : List (String × List Nat)) (flat : Nat) (kv : Nat × ParamInfo),
      kv ∈ mappingOf flat params → kv.2.name ∈ params.map Prod.fst := by
  intro params
  induction params with
  | nil => intro flat kv h; simp [mappingOf] at h
  | cons p rest ih =>
    intro flat kv h
    obtain ⟨name, shape⟩ := p
    simp only [mappingOf, List.mem_append, List.mem_map, List.mem_range] at h
    rcases h with ⟨i, _, rfl⟩ | h
    · simp [mkParamInfo]
    · simp only [List.map_cons, List.mem_cons]
      exact Or.inr (ih (flat + shape.prod) kv h)

/-- Keys are below the running offset plus the remaining parameter count. -/
theorem mappingOf_key_bounds :
    ∀ (params : List (String × List Nat)) (flat : Nat) (kv : Nat × ParamInfo),
      kv ∈ mappingOf flat params →
        flat ≤ kv.1 ∧ kv.1 < flat + numParamsOf params := by
  intro params
  induction params with
  | nil => intro flat kv h; simp [mappingOf] at h
  | cons p rest ih =>
    intro flat kv h
    obtain ⟨name, shape⟩ := p
    simp only [mappingOf, List.mem_append, List.mem_map, List.mem_range] at h
    have hN : numParamsOf ((name, shape) :: rest)
        = shape.prod + numParamsOf rest := by simp [numParamsOf]
    rcases h with ⟨i, hi, rfl⟩ | h
    · simp only [hN]; omega
    · have := ih (flat + shape.prod) kv h
      rw [hN]; omega

/-- Distinct flat offsets never share a `(name, coordinates)` pair: the map
from flat offset to `(tensor, coordinate)` is injective (given the distinct
parameter names `named_parameters` guarantees). -/
theorem mappingOf_inj :
    ∀ (params : List (String × List Nat)) (flat : Nat),
      (params.map Prod.fst).Nodup →
      ∀ kv ∈ mappingOf flat params, ∀ kv' ∈ mappingOf flat params,
        kv.2.name = kv'.2.name → kv.2.coordinates = kv'.2.coordinates →
          kv.1 = kv'.1 := by
  intro params
  induction params with
  | nil => intro flat _ kv h; simp [mappingOf] at h
  | cons p rest ih =>
    intro flat hnodup kv hkv kv' hkv' hname hcoord
    obtain ⟨name, shape⟩ := p
    simp only [List.map_cons, List.nodup_cons] at hnodup
    simp only [mappingOf, List.mem_append, List.mem_map, List.mem_range]
      at hkv hkv'
    rcases hkv with ⟨i, hi, rfl⟩ | hkv
    · rcases hkv' with ⟨j, hj, rfl⟩ | hkv'
      · simp only [mkParamInfo] at hcoord
        have := unravel_injOn hi hj hcoord
        simp [this]
      · exfalso
        have := mappingOf_name_mem rest (flat + shape.prod) kv' hkv'
        rw [← hname] at this
        exact hnodup.1 (by simpa [mkParamInfo] using this)
    · rcases hkv' with ⟨j, hj, rfl⟩ | hkv'
      · exfalso
        have := mappingOf_name_mem rest (flat + shape.prod) kv hkv
        rw [hname] at this
        exact hnodup.1 (by simpa [mkParamInfo] using this)
      · exact ih (flat + shape.prod) hnodup.2 kv hkv kv' hkv' hname hcoord

/-- Every mapping entry's `layer` and `type` fields are the name-derived
values. -/
theorem mappingOf_fields :
    ∀ (ps : List (String × List Nat)) (flat : Nat) (kv : Nat × ParamInfo),
      kv ∈ mappingOf flat ps →
        kv.2.layer = layerOfName kv.2.name ∧ kv.2.type = typeOfName kv.2.name := by
  intro ps
  induction ps with
  | nil => intro flat kv h; simp [mappingOf] at h
  | cons p rest ih =>
    intro flat kv h
    obtain ⟨name, shape⟩ := p
    simp only [mappingOf, List.mem_append, List.mem_map, List.mem_range] at h
    rcases h with ⟨i, _, rfl⟩ | h
    · exact ⟨rfl, rfl⟩
    · exact ih (flat + shape.prod) kv h

/-- C4: for every model with distinct parameter names, the index built by
`create_parameter_mapping` covers the flat offsets `0..N-1` exactly once, the
offset-to-`(name, coordinates)` assignment is injective (together a bijection
between flat offsets and (tensor, coordinate) pairs), and every entry's
`layer` is the part of the dotted name before the first `'.'` (the whole name
when it has no `'.'`) while its `type` is `bias` iff the name ends with the
literal suffix `bias`, else `weight`. -/
theorem create_parameter_mapping_spec (params : List (String × List Nat))
    (hnodup : (params.map Prod.fst).Nodup) :
    (mappingOf 0 params).map Prod.fst = List.range (numParamsOf params)
      ∧ (∀ kv ∈ mappingOf 0 params,
          kv.2.layer = String.mk (kv.2.name.data.takeWhile (fun c => c ≠ '.'))
            ∧ (kv.2.type = "bias" ↔ "bias".data <:+ kv.2.name.data)
            ∧ (kv.2.type = "bias" ∨ kv.2.type = "weight"))
      ∧ ∀ kv ∈ mappingOf 0 params, ∀ kv' ∈ mappingOf 0 params,
          kv.2.name = kv'.2.name → kv.2.coordinates = kv'.2.coordinates →
            kv.1 = kv'.1 := by
  refine ⟨create_parameter_mapping_keys params, ?_, mappingOf_inj params 0 hnodup⟩
  intro kv hkv
  have hfields := mappingOf_fields params 0 kv hkv
  refine ⟨?_, ?_, ?_⟩
  · rw [hfields.1, layerOfName_eq_takeWhile]
  · rw [hfields.2]
    exact (typeOfName_bias_iff _).1
  · rw [hfields.2]
    exact (typeOfName_bias_iff _).2

/-- Witness for C4 at a two-parameter model `fc1.weight : 2×2`,
`fc1.bias : 2`. -/
theorem create_parameter_mapping_spec_witness :
    ((([("fc1.weight", [2, 2]), ("fc1.bias", [2])] :
        List (String × List Nat)).map Prod.fst).Nodup)
      ∧ (mappingOf 0 [("fc1.weight", [2, 2]), ("fc1.bias", [2])]).map Prod.fst
          = List.range 6 :=
  ⟨by decide,
    (create_parameter_mapping_spec [("fc1.weight", [2, 2]), ("fc1.bias", [2])]
      (by decide)).1⟩

/-! ### Lookup, argsort and loop lemmas (claims C2 and C8) -/

theorem lookup_isSome_of_mem_keys {m : List (Nat × ParamInfo)} {i : Nat}
    (h : i ∈ m.map Prod.fst) : (m.lookup i).isSome := by
  induction m with
  | nil => simp at h
  | cons kv m ih =>
    obtain ⟨k, v⟩ := kv
    simp only [List.map_cons, List.mem_cons] at h
    by_cases hik : i = k
    · simp [List.lookup_cons, hik]
    · have hm : i ∈ m.map Prod.fst := by
        rcases h with h | h
        · exact absurd h hik
        · exact h
      simpa [List.lookup_cons, beq_eq_false_iff_ne.mpr hik] using ih hm

theorem lookup_eq_none_of_not_mem_keys {m : List (Nat × ParamInfo)} {i : Nat}
    (h : i ∉ m.map Prod.fst) : m.lookup i = none := by
  induction m with
  | nil => rfl
  | cons kv m ih =>
    obtain ⟨k, v⟩ := kv
    simp only [List.map_cons, List.mem_cons, not_or] at h
    simpa [List.lookup_cons, beq_eq_false_iff_ne.mpr h.1] using ih h.2

theorem isArgsortOf_mem {l : List ℚ} {idxs : List Nat} {i : Nat}
    (h : isArgsortOf l idxs) (hi : i ∈ idxs) : i < l.length := by
  have := (h.1.mem_iff).1 hi
  simpa using this

theorem isArgsortOf_nodup {l : List ℚ} {idxs : List Nat}
    (h : isArgsortOf l idxs) : idxs.Nodup :=
  h.1.symm.nodup (List.nodup_range _)

theorem isArgsortOf_length {l : List ℚ} {idxs : List Nat}
    (h : isArgsortOf l idxs) : idxs.length = l.length := by
  simpa using h.1.length_eq

theorem lastSlice_sublist (k : Nat) (xs : List α) :
    (lastSlice k xs).Sublist xs := by
  unfold lastSlice
  split_ifs
  · exact List.Sublist.refl _
  · exact List.drop_sublist _ _

theorem topLoop_ok {m : List (Nat × ParamInfo)} (ev : List ℚ)
    {indices : List Nat} (h : ∀ i ∈ indices, (m.lookup i).isSome) :
    ∃ lst, topLoop m ev indices = .ok lst
      ∧ lst.map (fun e => e.index) = indices := by
  induction indices with
  | nil => exact ⟨[], rfl, rfl⟩
  | cons i rest ih =>
    obtain ⟨info, hinfo⟩ := Option.isSome_iff_exists.1 (h i (by simp))
    obtain ⟨tail, htail, hmap⟩ := ih (fun j hj => h j (by simp [hj]))
    refine ⟨{ index := i, param_name := info.name, layer := info.layer,
              coordinates := info.coordinates, contribution := ev.getD i 0,
              abs_contribution := |ev.getD i 0|,
              param_type := info.type } :: tail,
      ?_, by simp [hmap]⟩
    simp [topLoop, hinfo, htail]

theorem layerLoop_ok {m : List (Nat × ParamInfo)} {pairs : List (Nat × ℚ)}
    (acc : List (String × ℚ)) (h : ∀ p ∈ pairs, (m.lookup p.1).isSome) :
    ∃ d, layerLoop m pairs acc = .ok d := by
  induction pairs generalizing acc with
  | nil => exact ⟨acc, rfl⟩
  | cons p rest ih =>
    obtain ⟨pi, pv⟩ := p
    obtain ⟨info, hinfo⟩ := Option.isSome_iff_exists.1 (h (pi, pv) (by simp))
    obtain ⟨d, hd⟩ := ih (addToLayer acc info.layer pv)
      (fun q hq => h q (by simp [hq]))
    exact ⟨d, by simp [layerLoop, hinfo, hd]⟩

theorem layerLoop_err {m : List (Nat × ParamInfo)} {pairs : List (Nat × ℚ)}
    (h : ∃ p ∈ pairs, m.lookup p.1 = none) :
    ∀ acc, layerLoop m pairs acc = .error .keyError := by
  induction pairs with
  | nil =>
    obtain ⟨p, hp, _⟩ := h
    simp at hp
  | cons q rest ih =>
    intro acc
    obtain ⟨qi, qv⟩ := q
    cases hq : m.lookup qi with
    | none => simp [layerLoop, hq]
    | some info =>
      obtain ⟨p, hp, hnone⟩ := h
      rcases List.mem_cons.1 hp with rfl | hp'
      · rw [hq] at hnone; cases hnone
      · simp only [layerLoop, hq]
        exact ih ⟨p, hp', hnone⟩ _

theorem enum_mem_of_lt {l : List ℚ} {i : Nat} (h : i < l.length) :
    ∃ v, (i, v) ∈ l.enum := by
  have hb : i < l.enum.length := by simpa using h
  refine ⟨l.get ⟨i, h⟩, ?_⟩
  have he := List.getElem_enum l i hb
  rw [List.get_eq_getElem, ← he]
  exact List.getElem_mem hb

/-! ### Claim C8 -/

/-- C8 counterexample: an eigenvector of length 1 against an index with
`N = 2` (one parameter of shape `[2]`) — shorter than the index — makes both
`layerContributions` and `topContributors` return a result (computed over the
single present entry) instead of failing.  `[0]` is the only admissible
`np.argsort` output for the singleton absolute-contribution array. -/
theorem analyze_shorter_counterexample :
    isArgsortOf (([5] : List ℚ).map (fun q => |q|)) [0]
      ∧ analyze_eigenvector (fun _ => [0]) [5] (mappingOf 0 [("p", [2])]) 10 true
          = .ok (.layers [("p", 5)])
      ∧ analyze_eigenvector (fun _ => [0]) [5] (mappingOf 0 [("p", [2])]) 10 false
          = .ok (.top [{ index := 0, param_name := "p", layer := "p",
                         coordinates := [0], contribution := 5,
                         abs_contribution := 5,
                         param_type := "weight" }]) := by
  refine ⟨?_, ?_, ?_⟩ <;> decide

/-- C8 (amended): `analyze_eigenvector` fails only for eigenvectors longer
than the index, and then with a `KeyError` from the `param_mapping[idx]` dict
lookup (not an `IndexError`): an eigenvector no longer than `N` makes both the
`by_layer` and the top-contributors paths return normally, while one longer
than `N` makes the `by_layer` path fail with `KeyError` (the top path touches
only selected indices). -/
theorem analyze_length_mismatch (np_argsort : List ℚ → List Nat)
    (params : List (String × List Nat)) (ev : List ℚ) (top_k : Nat)
    (hA : isArgsortOf (ev.map (fun q => |q|))
      (np_argsort (ev.map (fun q => |q|)))) :
    (ev.length ≤ numParamsOf params →
        isOk (analyze_eigenvector np_argsort ev (mappingOf 0 params) top_k true)
          ∧ isOk (analyze_eigenvector np_argsort ev (mappingOf 0 params) top_k false))
      ∧ (numParamsOf params < ev.length →
          analyze_eigenvector np_argsort ev (mappingOf 0 params) top_k true
            = .error .keyError) := by
  have hkeys := create_parameter_mapping_keys params
  constructor
  · intro hle
    constructor
    · have hall : ∀ p ∈ (ev.map (fun q => |q|)).enum,
          ((mappingOf 0 params).lookup p.1).isSome := by
        intro p hp
        obtain ⟨i, v⟩ := p
        have h1 := (List.mem_enum hp).1
        apply lookup_isSome_of_mem_keys
        rw [hkeys]
        simp only [List.mem_range]
        simp only [List.length_map] at h1
        omega
      obtain ⟨d, hd⟩ := layerLoop_ok [] hall
      simp [analyze_eigenvector, hd, isOk]
    · have hmem : ∀ i ∈ (lastSlice top_k
            (np_argsort (ev.map (fun q => |q|)))).reverse,
          ((mappingOf 0 params).lookup i).isSome := by
        intro i hi
        apply lookup_isSome_of_mem_keys
        rw [hkeys]
        simp only [List.mem_range]
        have hi' : i ∈ np_argsort (ev.map (fun q => |q|)) :=
          (lastSlice_sublist _ _).subset (List.mem_reverse.1 hi)
        have := isArgsortOf_mem hA hi'
        simp only [List.length_map] at this
        omega
      obtain ⟨lst, hlst, _⟩ := topLoop_ok ev hmem
      simp [analyze_eigenvector, hlst, isOk]
  · intro hgt
    have hN : numParamsOf params < (ev.map (fun q => |q|)).length := by
      simpa using hgt
    obtain ⟨v, hv⟩ := enum_mem_of_lt hN
    have hnone : (mappingOf 0 params).lookup (numParamsOf params) = none := by
      apply lookup_eq_none_of_not_mem_keys
      rw [hkeys]
      simp
    have herr := layerLoop_err ⟨(numParamsOf params, v), hv, hnone⟩ []
    simp [analyze_eigenvector, herr]

/-- Witness for C8 (amended): with `N = 2` an eigenvector of length 2 analyzes
normally, one of length 3 fails with `KeyError` on the `by_layer` path; the
supplied `np.argsort` outputs are admissible for the respective inputs. -/
theorem analyze_length_mismatch_witness :
    (isOk (analyze_eigenvector (fun _ => [0, 1]) [3, 4]
          (mappingOf 0 [("p", [2])]) 10 true)
        ∧ isOk (analyze_eigenvector (fun _ => [0, 1]) [3, 4]
          (mappingOf 0 [("p", [2])]) 10 false))
      ∧ analyze_eigenvector (fun _ => [0, 1, 2]) [3, 4, 5]
          (mappingOf 0 [("p", [2])]) 10 true = .error .keyError :=
  ⟨(analyze_length_mismatch (fun _ => [0, 1]) [("p", [2])] [3, 4] 10
      (by decide)).1 (by decide),
    (analyze_length_mismatch (fun _ => [0, 1, 2]) [("p", [2])] [3, 4, 5] 10
      (by decide)).2 (by decide)⟩

/-! ### Claim C2 -/

theorem absList_getD {ev : List ℚ} {x : Nat} (h : x < ev.length) :
    (ev.map (fun q => |q|)).getD x 0 = |ev.getD x 0| := by
  rw [List.getD_eq_getElem _ _ (by simpa using h), List.getElem_map,
    List.getD_eq_getElem _ _ h]

/-- C2 counterexample: for the eigenvector `[1, 1]` — a tie in absolute
value — with `top_k = 2`, the contributor indices come out `[1, 0]`, not the
ascending tie order `[0, 1]` the claim states: whatever order the unstable
`np.argsort` emits for the tied positions is reversed wholesale by `[::-1]`.
`[0, 1]` is an admissible argsort output here (and the one NumPy's
small-array insertion sort actually produces for two tied elements). -/
theorem analyze_ties_counterexample :
    isArgsortOf (([1, 1] : List ℚ).map (fun q => |q|)) [0, 1]
      ∧ (analyze_eigenvector (fun _ => [0, 1]) [1, 1]
          (mappingOf 0 [("p", [2])]) 2 false).map resultIndices = .ok [1, 0]
      ∧ ([1, 0] : List Nat) ≠ [0, 1] := by
  refine ⟨?_, ?_, ?_⟩ <;> decide

/-- C2 (amended): for every admissible `np.argsort` output and every
eigenvector of length `N` (the index's total count) and every `top_k`, the
top-contributor list is sorted by descending absolute eigenvector component;
the relative order of entries with equal absolute value is unspecified
(NumPy's default quicksort is not stable, and on the counterexample input the
resulting tie order is descending index, not ascending as claimed).  The
selected indices are pairwise distinct, and with `top_k = N` every flat index
is returned exactly once. -/
theorem analyze_top_sorted (np_argsort : List ℚ → List Nat)
    (params : List (String × List Nat)) (ev : List ℚ) (top_k : Nat)
    (hA : isArgsortOf (ev.map (fun q => |q|))
      (np_argsort (ev.map (fun q => |q|))))
    (hlen : ev.length = numParamsOf params) :
    ∃ lst,
      analyze_eigenvector np_argsort ev (mappingOf 0 params) top_k false
          = .ok (.top lst)
        ∧ (lst.map (fun e => e.index)).Pairwise
            (fun i j => |ev.getD j 0| ≤ |ev.getD i 0|)
        ∧ (lst.map (fun e => e.index)).Nodup
        ∧ (top_k = numParamsOf params →
            (lst.map (fun e => e.index)).Perm
              (List.range (numParamsOf params))) := by
  have hkeys := create_parameter_mapping_keys params
  have hmemA : ∀ i ∈ (lastSlice top_k
      (np_argsort (ev.map (fun q => |q|)))).reverse, i < ev.length := by
    intro i hi
    have hi' : i ∈ np_argsort (ev.map (fun q => |q|)) :=
      (lastSlice_sublist _ _).subset (List.mem_reverse.1 hi)
    have := isArgsortOf_mem hA hi'
    simpa using this
  have hsome : ∀ i ∈ (lastSlice top_k
      (np_argsort (ev.map (fun q => |q|)))).reverse,
      ((mappingOf 0 params).lookup i).isSome := by
    intro i hi
    apply lookup_isSome_of_mem_keys
    rw [hkeys]
    simp only [List.mem_range]
    have := hmemA i hi
    omega
  obtain ⟨lst, hlst, hmap⟩ := topLoop_ok ev hsome
  refine ⟨lst, by simp [analyze_eigenvector, hlst], ?_, ?_, ?_⟩
  · rw [hmap]
    have hsliceSorted : List.Pairwise
        (fun i j => (ev.map (fun q => |q|)).getD i 0
          ≤ (ev.map (fun q => |q|)).getD j 0)
        (lastSlice top_k (np_argsort (ev.map (fun q => |q|)))) :=
      List.Pairwise.sublist (lastSlice_sublist _ _) hA.2
    have hrevSorted := List.pairwise_reverse.mpr hsliceSorted
    refine hrevSorted.imp_of_mem ?_
    intro a b ha hb hrel
    rw [← absList_getD (hmemA a ha), ← absList_getD (hmemA b hb)]
    exact hrel
  · rw [hmap]
    exact List.nodup_reverse.mpr
      ((isArgsortOf_nodup hA).sublist (lastSlice_sublist _ _))
  · intro hk
    have hAlen : (np_argsort (ev.map (fun q => |q|))).length
        = numParamsOf params := by
      rw [isArgsortOf_length hA]
      simpa using hlen
    have hslice : lastSlice top_k (np_argsort (ev.map (fun q => |q|)))
        = np_argsort (ev.map (fun q => |q|)) := by
      unfold lastSlice
      split_ifs with h0
      · rfl
      · rw [hAlen, hk, Nat.sub_self, List.drop_zero]
    have hml : (ev.map (fun q => |q|)).length = numParamsOf params := by
      simpa using hlen
    rw [hmap, hslice, ← hml]
    exact (List.reverse_perm _).trans hA.1

/-- Witness for C2 (amended) at eigenvector `[2, 1]`, `top_k = N = 2`, with
the (unique) admissible argsort output `[1, 0]` of the absolute values. -/
theorem analyze_top_sorted_witness :
    isArgsortOf (([2, 1] : List ℚ).map (fun q => |q|)) [1, 0]
      ∧ ([2, 1] : List ℚ).length = numParamsOf [("p", [2])]
      ∧ ∃ lst, analyze_eigenvector (fun _ => [1, 0]) [2, 1]
            (mappingOf 0 [("p", [2])]) 2 false = .ok (.top lst)
          ∧ (lst.map (fun e => e.index)).Perm
              (List.range (numParamsOf [("p", [2])])) := by
  refine ⟨by decide, by decide, ?_⟩
  obtain ⟨lst, h1, _, _, h4⟩ := analyze_top_sorted (fun _ => [1, 0])
    [("p", [2])] [2, 1] 2 (by decide) (by decide)
  exact ⟨lst, h1, h4 (by decide)⟩

end EoS
